import Mathlib

/-
  Verification development for the librarian content-library backend.

  The Python modules `librarian/core/metadata.py` and
  `librarian/core/backends/embedded/archive.py` are embedded shallowly:
  Python dictionaries become association lists over `String` keys, the
  external dateutil date parser becomes an explicit function parameter,
  UTF-8/JSON decoding failures become input variants, and the SQL layer
  becomes explicit state passing over a record of tables.
-/

set_option autoImplicit false

namespace Librarian

/-! ### Python dict embedding -/

/-- A Python dict is embedded as an association list over string keys.
The entry order models CPython insertion behaviour closely enough for the
operations used by the source: lookup finds the first matching entry,
assignment overwrites in place or appends, and deletion removes the key. -/
abbrev Dict (α : Type) := List (String × α)

/-- `meta.get(k)` / `meta[k]`: the value stored under `k`, if any. -/
def getk {α : Type} (m : Dict α) (k : String) : Option α :=
  (m.find? (fun p => p.1 == k)).map (fun p => p.2)

/-- `k in meta`: key-membership test. -/
def hask {α : Type} (m : Dict α) (k : String) : Bool :=
  m.any (fun p => p.1 == k)

/-- `meta[k] = v`: overwrite the entry for `k` in place, or append it. -/
def setk {α : Type} (m : Dict α) (k : String) (v : α) : Dict α :=
  if hask m k then m.map (fun p => if p.1 == k then (k, v) else p)
  else m ++ [(k, v)]

/-- `del meta[k]` / `meta.pop(k)` (the removal part): drop the key. -/
def delk {α : Type} (m : Dict α) (k : String) : Dict α :=
  m.filter (fun p => p.1 != k)

/-- `meta.update(other)`: assign every entry of `other` into `m` in order. -/
def updateDict {α : Type} (m : Dict α) (other : Dict α) : Dict α :=
  other.foldl (fun acc p => setk acc p.1 p.2) m

/-! ### Metadata values and errors (`librarian/core/metadata.py`) -/

/-- JSON-like values stored in a metadata dict.  `vdate d` stands for the
date object produced by `dateutil.parser.parse(s).date()`, abstracted as a
number `d`. -/
inductive Val where
  | vnull
  | vbool (b : Bool)
  | vint (n : Int)
  | vstr (s : String)
  | vdate (d : Nat)
  deriving DecidableEq

abbrev Meta := Dict Val

/-- The two error classes raised by the normalizer: `DecodeError` and
`FormatError` (both subclasses of `MetadataError`). -/
inductive MetaError where
  | decodeError (msg : String)
  | formatError (msg : String)
  deriving DecidableEq

/-- A declared default value in `META_SPECIFICATION`: either a static value
or the computed `default_broadcast` callable. -/
inductive FieldDefault where
  | static (v : Val)
  | computed
  deriving DecidableEq

/-- One entry of `META_SPECIFICATION`.  `dflt` embeds the `default` key of
the Python spec dict; a missing `default` key is `.static .vnull` because
`get_default_value` returns `None` for it. -/
structure Field where
  name : String
  required : Bool
  dflt : FieldDefault
  aliases : List String
  auto : Bool
  deriving DecidableEq

/-- The right-to-left language codes. -/
def RTL_LANGS : List String := ["ar", "he", "ur", "yi", "ji", "iw", "fa"]

/-- `META_SPECIFICATION`, in source listing order.  (CPython 2 dict
iteration order is unspecified; every verified statement below is
insensitive to the order of this list.) -/
def META_SPECIFICATION : List Field := [
  ⟨"url", true, .static .vnull, [], false⟩,
  ⟨"title", true, .static .vnull, [], false⟩,
  ⟨"images", false, .static (.vint 0), [], false⟩,
  ⟨"timestamp", true, .static .vnull, [], false⟩,
  ⟨"keep_formatting", false, .static (.vbool false), [], false⟩,
  ⟨"is_partner", false, .static (.vbool false), [], false⟩,
  ⟨"is_sponsored", false, .static (.vbool false), [], false⟩,
  ⟨"archive", false, .static (.vstr "core"), [], false⟩,
  ⟨"publisher", false, .static (.vstr ""), ["partner"], false⟩,
  ⟨"license", true, .static .vnull, [], false⟩,
  ⟨"language", false, .static (.vstr ""), [], false⟩,
  ⟨"multipage", false, .static (.vbool false), [], false⟩,
  ⟨"entry_point", false, .static (.vstr "index.html"), ["index"], false⟩,
  ⟨"broadcast", false, .computed, [], false⟩,
  ⟨"keywords", false, .static (.vstr ""), [], false⟩,
  ⟨"md5", false, .static .vnull, [], true⟩,
  ⟨"size", false, .static .vnull, [], true⟩,
  ⟨"updated", false, .static .vnull, [], true⟩]

/-- `STANDARD_FIELDS`: the specification entries that are not `auto`. -/
def STANDARD_FIELDS : List Field :=
  META_SPECIFICATION.filter (fun f => !f.auto)

/-- `REQUIRED_KEYS`: names of the entries flagged `required`. -/
def REQUIRED_KEYS : List String :=
  (META_SPECIFICATION.filter (fun f => f.required)).map (fun f => f.name)

/-- The external `dateutil.parser.parse(s).date()` call, abstracted: `none`
models a parse failure (an exception), `some d` a successful date. -/
abbrev DateParser := String → Option Nat

/-- A single quote character, used to render the source format strings. -/
def sq : String := String.singleton (Char.ofNat 39)

/-- Renders Python `"...'%s'..."` interpolation of a string. -/
def quoted (s : String) : String := sq ++ s ++ sq

/-- `default_broadcast(key, meta)`: parse `meta[timestamp]` as a date.  Any
exception (missing key, non-string value, unparseable string) is an error. -/
def default_broadcast (P : DateParser) (m : Meta) : Except String Val :=
  match getk m "timestamp" with
  | some (.vstr s) =>
    match P s with
    | some d => .ok (.vdate d)
    | none => .error ("could not parse timestamp " ++ quoted s)
  | some _ => .error "timestamp value is not a string"
  | none => .error "timestamp"

/-- `get_default_value(key, meta)`: the declared default of the field,
calling the default when it is callable.  The source looks the key up in
`STANDARD_FIELDS`; the callers below always pass a field of that list. -/
def get_default_value (P : DateParser) (f : Field) (m : Meta) :
    Except String Val :=
  match f.dflt with
  | .static v => .ok v
  | .computed => default_broadcast P m

/-- One iteration of the `add_missing_keys` loop body. -/
def add_key (P : DateParser) (m : Meta) (f : Field) : Except String Meta :=
  if hask m f.name then .ok m
  else
    match get_default_value P f m with
    | .ok v => .ok (setk m f.name v)
    | .error e => .error e

/-- The `add_missing_keys` loop over a list of fields: each missing key is
filled in turn; a raised exception aborts the loop. -/
def add_keys (P : DateParser) (L : List Field) (m : Meta) :
    Except String Meta :=
  match L with
  | [] => .ok m
  | f :: L =>
    match add_key P m f with
    | .ok m1 => add_keys P L m1
    | .error e => .error e

/-- `add_missing_keys(meta)`: fill every `STANDARD_FIELDS` key that is not
present with its default value.  The source mutates `meta` in place; here
the updated dict is returned, and a raised exception becomes `.error`. -/
def add_missing_keys (P : DateParser) (m : Meta) : Except String Meta :=
  add_keys P STANDARD_FIELDS m

/-- The body of the inner alias loop: `meta[key] = meta.pop(alias)`,
guarded by `alias in meta`. -/
def pop_alias (key : String) (m : Meta) (a : String) : Meta :=
  match getk m a with
  | some v => setk (delk m a) key v
  | none => m

/-- One iteration of the outer `replace_aliases` loop: when `key` is not
present, move each present alias value onto `key`. -/
def alias_step (m : Meta) (f : Field) : Meta :=
  if hask m f.name then m
  else f.aliases.foldl (pop_alias f.name) m

/-- `replace_aliases(meta)`: replace deprecated aliases with their current
substitutions, over all standard fields. -/
def replace_aliases (m : Meta) : Meta :=
  STANDARD_FIELDS.foldl alias_step m

/-- `clean_keys(meta)`: delete every key that is not a standard field. -/
def clean_keys (m : Meta) : Meta :=
  m.filter (fun p => STANDARD_FIELDS.any (fun f => f.name == p.1))

/-- Raw input of `convert_json`.  The byte decoding and JSON parsing are
done by external codecs; their two failure modes and the successfully
parsed object are the three possible shapes the rest of the function
distinguishes. -/
inductive RawInput where
  | invalidUtf8
  | invalidJson
  | parsed (m : Meta)

/-- The tail of `convert_json` on the dict after alias replacement: the
required-key check loop (raising `FormatError` at the first missing
required key) followed by `add_missing_keys` (whose exception becomes a
`DecodeError`). -/
def convert_checked (P : DateParser) (m : Meta) : Except MetaError Meta :=
  match STANDARD_FIELDS.find? (fun f => f.required && !hask m f.name) with
  | some f =>
    .error (.formatError ("Mandatory key " ++ quoted f.name ++ " missing"))
  | none =>
    match add_missing_keys P m with
    | .ok m2 => .ok m2
    | .error e =>
      .error (.decodeError ("Failed to add default values: " ++ quoted e))

/-- `convert_json(meta)`: decode, parse, replace aliases, check required
keys, fill defaults. -/
def convert_json (P : DateParser) (raw : RawInput) : Except MetaError Meta :=
  match raw with
  | .invalidUtf8 => .error (.decodeError "Failed to decode metadata")
  | .invalidJson => .error (.decodeError "Invalid JSON")
  | .parsed m0 => convert_checked P (replace_aliases m0)

/-! ### The `Meta` wrapper (presentation attributes) -/

/-- Python truthiness of a value looked up with `meta.get` (missing key
gives `None`, which is falsy). -/
def truthy : Option Val → Bool
  | none => false
  | some .vnull => false
  | some (.vbool b) => b
  | some (.vint n) => !(n == 0)
  | some (.vstr s) => !(s == "")
  | some (.vdate _) => true

/-- `Meta.lang`: `self.meta.get("language")`. -/
def lang (m : Meta) : Option Val := getk m "language"

/-- `Meta.rtl`: `self.lang in RTL_LANGS`.  Membership of a Python list of
strings holds only for equal strings, so a missing or non-string language
is never right-to-left. -/
def rtl (m : Meta) : Bool :=
  match lang m with
  | some (.vstr s) => RTL_LANGS.contains s
  | _ => false

/-- `Meta.label`: the content classification label. -/
def label (m : Meta) : String :=
  if getk m "archive" == some (.vstr "core") then "core"
  else if truthy (getk m "is_sponsored") then "sponsored"
  else if truthy (getk m "is_partner") then "partner"
  else "core"

/-! ### The `Meta.image` resolution (`librarian/core/metadata.py`)

The cover lookup, zip extraction and cover caching touch the filesystem.
Their outcomes, including the exception classes the `image` property
catches, are embedded as an explicit environment. -/

/-- Outcome of `self.extract_image()`: an image entry found in the zip, no
image entry in the zip (`(None, None)`), or one of the two exception
classes caught by the `image` property (a `TypeError` from a bad path, an
`OSError` from failing file input/output). -/
inductive ExtractOutcome where
  | found (ext : String) (content : String)
  | noImage
  | raiseTypeError
  | raiseOSError

/-- Outcome of `self.cache_cover(ext, content)`: the written cover file
name, or an `OSError` while writing. -/
inductive CacheOutcome where
  | ok (filename : String)
  | raiseOSError

/-- Filesystem environment of one `image` evaluation:
`coverPath` is the result of `self.get_cover_path()` (a glob over the
cover directory), `extract` of `self.extract_image()`, and `cache` of
`self.cache_cover`. -/
structure ImgEnv where
  coverPath : Option String
  extract : ExtractOutcome
  cache : String → String → CacheOutcome

/-- The fields of the `Meta` object the `image` property reads and writes:
the `_image` cache slot and the optional zip path. -/
structure MetaWrap where
  imageCache : Option String
  zipPath : Option String

/-- The `Meta.image` property: return the cached value, else a cover from
the cover directory, else extract and cache an image from the zip.  A raised
`TypeError` or `OSError` is caught and yields `none`. -/
def image (env : ImgEnv) (w : MetaWrap) : Option String × MetaWrap :=
  match w.imageCache with
  | some img => (some img, w)
  | none =>
    match env.coverPath with
    | some cover => (some cover, { w with imageCache := some cover })
    | none =>
      match w.zipPath with
      | none => (none, w)
      | some _ =>
        match env.extract with
        | .raiseTypeError => (none, w)
        | .raiseOSError => (none, w)
        | .noImage => (none, w)
        | .found ext content =>
          match env.cache ext content with
          | .raiseOSError => (none, w)
          | .ok fname => (some fname, { w with imageCache := some fname })

/-! ### The embedded archive backend
(`librarian/core/backends/embedded/archive.py`)

The SQL engine is an external service; the three tables the verified
operations touch are embedded as explicit lists, and each SQL statement
as the standard-SQL transformation of those lists. -/

/-- A row of the `zipballs` table, restricted to the columns the verified
operations read or write (`md5` the primary key, `views` the view count,
`tags` the JSON-serialized tag mapping); the remaining metadata columns
do not participate in `add_view`, `add_tags` or `remove_tags`. -/
structure Zipball where
  md5 : String
  views : Int
  tags : String
  deriving DecidableEq

/-- A row of the `tags` table: an autoincrement id and a unique name. -/
structure TagRow where
  tag_id : Nat
  name : String
  deriving DecidableEq

/-- The database state: the `zipballs`, `tags` and `taggings` tables, plus
the autoincrement counter of the `tags` table. -/
structure DBState where
  zipballs : List Zipball
  tags : List TagRow
  taggings : List (String × Nat)
  nextTagId : Nat
  deriving DecidableEq

/-- The `Meta` object as seen by the tag operations: its `md5` attribute
and its `tags` mapping (tag name to tag id). -/
structure MetaObj where
  md5 : String
  tags : Dict Nat
  deriving DecidableEq

/-- `json.dumps` of a tag mapping, abstracted to an injective rendering;
the archive stores this string in the `tags` column and never parses it
in the verified operations. -/
def dumps (m : Dict Nat) : String :=
  "\x7b" ++ String.intercalate ", "
    (m.map (fun p => quoted p.1 ++ ": " ++ toString p.2)) ++ "\x7d"

/-- `INSERT INTO tags (name) VALUES (?)` under the unique-name constraint:
a name that already has a row keeps it, a new name gets the next id
(the spec: adding tags first ensures all tag rows exist). -/
def insertTag (t : List TagRow × Nat) (name : String) : List TagRow × Nat :=
  if t.1.any (fun r => r.name == name) then t
  else (t.1 ++ [⟨t.2, name⟩], t.2 + 1)

/-- The `executemany` insert of all tag names. -/
def ensureTags (rows : List TagRow) (next : Nat) (names : List String) :
    List TagRow × Nat :=
  names.foldl insertTag (rows, next)

/-- `SELECT * FROM tags WHERE name IN (names)`. -/
def selectTags (rows : List TagRow) (names : List String) : List TagRow :=
  rows.filter (fun r => names.contains r.name)

/-- `EmbeddedArchive.add_view(md5)`: run
`UPDATE zipballs SET views = views + 1 WHERE md5 = ?`, then assert that
the cursor updated exactly one row.  The state component is the database
after the update; the `Except` component is the returned row count, or
the `AssertionError`. -/
def add_view (db : DBState) (md5 : String) : DBState × Except String Nat :=
  let zs := db.zipballs.map
    (fun z => if z.md5 == md5 then { z with views := z.views + 1 } else z)
  let rowcount := db.zipballs.countP (fun z => z.md5 == md5)
  ({ db with zipballs := zs },
   if rowcount == 1 then .ok rowcount
   else .error "Updated more than one row")

/-- `EmbeddedArchive.add_tags(meta, tags)`: on a falsy tag collection
return immediately; otherwise ensure the tag rows exist, select their
ids, merge the name-to-id pairs into `meta.tags`, insert the taggings and
store the serialized mapping back on the content row. -/
def add_tags (db : DBState) (meta : MetaObj) (tags : List String) :
    DBState × MetaObj :=
  if tags.isEmpty then (db, meta)
  else
    let en := ensureTags db.tags db.nextTagId tags
    let rows := selectTags en.1 tags
    let tagsDict : Dict Nat := rows.map (fun r => (r.name, r.tag_id))
    let newTags := updateDict meta.tags tagsDict
    let pairs := rows.map (fun r => (meta.md5, r.tag_id))
    let zs := db.zipballs.map
      (fun z => if z.md5 == meta.md5 then { z with tags := dumps newTags }
                else z)
    ({ zipballs := zs, tags := en.1, taggings := db.taggings ++ pairs,
       nextTagId := en.2 },
     { meta with tags := newTags })

/-- `EmbeddedArchive.remove_tags(meta, tags)`: on a falsy tag collection
return immediately; otherwise look up each tag id in `meta.tags` (a
`KeyError`, modelled as `none`, propagates), drop the named tags from
`meta.tags`, delete the matching taggings and store the serialized
mapping back on the content row. -/
def remove_tags (db : DBState) (meta : MetaObj) (tags : List String) :
    Option (DBState × MetaObj) :=
  if tags.isEmpty then some (db, meta)
  else
    match tags.mapM (fun n => getk meta.tags n) with
    | none => none
    | some tag_ids =>
      let newTags := meta.tags.filter (fun p => !tags.contains p.1)
      let tgs := db.taggings.filter
        (fun t => !(t.1 == meta.md5 && tag_ids.contains t.2))
      let zs := db.zipballs.map
        (fun z => if z.md5 == meta.md5 then { z with tags := dumps newTags }
                  else z)
      some ({ db with zipballs := zs, taggings := tgs },
            { meta with tags := newTags })

/-! ### Concrete inputs used by witnesses and counterexamples -/

/-- A date parser that accepts every string. -/
def P0 : DateParser := fun _ => some 42

/-- A metadata dict lacking only the required `url` key. -/
def mMissingUrl : Meta :=
  [("title", .vstr "t"), ("timestamp", .vstr "ts"), ("license", .vstr "L")]

/-- A valid metadata dict carrying the non-specification key `foo`. -/
def c2Input : Meta :=
  [("url", .vstr "u"), ("title", .vstr "t"), ("timestamp", .vstr "ts"),
   ("license", .vstr "L"), ("broadcast", .vstr "b"), ("foo", .vstr "bar")]

/-- A valid metadata dict whose `publisher` arrives via the `partner`
alias. -/
def c3Input : Meta :=
  [("url", .vstr "u"), ("title", .vstr "t"), ("timestamp", .vstr "ts"),
   ("license", .vstr "L"), ("broadcast", .vstr "b"), ("partner", .vstr "X")]

/-- A valid metadata dict with every optional field missing. -/
def m3w : Meta :=
  [("url", .vstr "u"), ("title", .vstr "t"), ("timestamp", .vstr "2014"),
   ("license", .vstr "L")]

/-- The dict `convert_json P0 (.parsed m3w)` evaluates to. -/
def out3 : Meta :=
  [("url", .vstr "u"), ("title", .vstr "t"), ("timestamp", .vstr "2014"),
   ("license", .vstr "L"), ("images", .vint 0),
   ("keep_formatting", .vbool false), ("is_partner", .vbool false),
   ("is_sponsored", .vbool false), ("archive", .vstr "core"),
   ("publisher", .vstr ""), ("language", .vstr ""),
   ("multipage", .vbool false), ("entry_point", .vstr "index.html"),
   ("broadcast", .vdate 42), ("keywords", .vstr "")]

/-- An empty database. -/
def dbEmpty : DBState := ⟨[], [], [], 0⟩

/-- A database holding exactly one content row with md5 `m`. -/
def db1 : DBState := ⟨[⟨"m", 0, "x"⟩], [], [], 1⟩

/-- A database where tag `a` exists with id 1. -/
def db0 : DBState := ⟨[⟨"m", 0, "x"⟩], [⟨1, "a"⟩], [], 2⟩

/-- A content record already carrying tag `a`. -/
def meta0 : MetaObj := ⟨"m", [("a", 1)]⟩

/-- A content record carrying no tags. -/
def metaw : MetaObj := ⟨"m", []⟩

/-! ## Lemmas about the dict embedding -/

theorem getk_cons {α : Type} (p : String × α) (m : Dict α) (k : String) :
    getk (p :: m) k = if p.1 = k then some p.2 else getk m k := by
  by_cases h : p.1 = k
  · simp [getk, List.find?, h]
  · have hb : (p.1 == k) = false := by simpa using h
    simp [getk, List.find?, hb, h]

theorem hask_cons {α : Type} (p : String × α) (m : Dict α) (k : String) :
    hask (p :: m) k = (p.1 == k || hask m k) := by
  simp [hask]

theorem hask_append {α : Type} (m n : Dict α) (k : String) :
    hask (m ++ n) k = (hask m k || hask n k) := by
  simp [hask]

theorem getk_append_left {α : Type} (m n : Dict α) (k : String)
    (h : hask m k = true) : getk (m ++ n) k = getk m k := by
  induction m with
  | nil => simp [hask] at h
  | cons p t ih =>
    by_cases hp : p.1 = k
    · simp [getk_cons, hp]
    · simp [hask_cons, hp] at h
      simp [getk_cons, hp, ih h]

theorem getk_append_right {α : Type} (m n : Dict α) (k : String)
    (h : hask m k = false) : getk (m ++ n) k = getk n k := by
  induction m with
  | nil => simp
  | cons p t ih =>
    simp [hask_cons] at h
    simp [getk_cons, h.1, ih h.2]

theorem getk_none_of_hask_false {α : Type} (m : Dict α) (k : String)
    (h : hask m k = false) : getk m k = none := by
  induction m with
  | nil => rfl
  | cons p t ih =>
    simp [hask_cons] at h
    simp [getk_cons, h.1, ih h.2]

theorem hask_true_of_getk_some {α : Type} (m : Dict α) (k : String) (v : α)
    (h : getk m k = some v) : hask m k = true := by
  by_contra hne
  rw [getk_none_of_hask_false m k (by simpa using hne)] at h
  cases h

/-- The in-place overwrite inside `setk` does not change the key list. -/
theorem mapset_keys {α : Type} (m : Dict α) (k : String) (v : α) :
    (m.map (fun p => if p.1 == k then (k, v) else p)).map Prod.fst =
      m.map Prod.fst := by
  induction m with
  | nil => rfl
  | cons p t ih =>
    have hh : (if p.1 == k then (k, v) else p).1 = p.1 := by
      by_cases hp : p.1 = k
      · have hb : (p.1 == k) = true := by simpa using hp
        rw [hb]; simp [hp]
      · have hb : (p.1 == k) = false := by simpa using hp
        rw [hb]; simp
    simp only [List.map_cons, hh, ih]

theorem hask_eq_keys {α : Type} (m : Dict α) (k : String) :
    hask m k = (m.map Prod.fst).any (fun s => s == k) := by
  induction m with
  | nil => rfl
  | cons p t ih =>
    simp only [hask_cons, List.map_cons, List.any_cons, ih]

theorem getk_mapset_self {α : Type} (m : Dict α) (k : String) (v : α)
    (h : hask m k = true) :
    getk (m.map (fun p => if p.1 == k then (k, v) else p)) k = some v := by
  induction m with
  | nil => simp [hask] at h
  | cons p t ih =>
    by_cases hp : p.1 = k
    · have hb : (p.1 == k) = true := by simpa using hp
      simp only [List.map_cons, hb, if_true]
      rw [getk_cons]
      simp
    · have hb : (p.1 == k) = false := by simpa using hp
      have ht : hask t k = true := by simpa [hask_cons, hb] using h
      simp only [List.map_cons, hb, Bool.false_eq_true, if_false]
      rw [getk_cons, if_neg hp]
      exact ih ht

theorem getk_mapset_ne {α : Type} (m : Dict α) (k k' : String) (v : α)
    (h : k' ≠ k) :
    getk (m.map (fun p => if p.1 == k then (k, v) else p)) k' = getk m k' := by
  induction m with
  | nil => rfl
  | cons p t ih =>
    by_cases hp : p.1 = k
    · have hb : (p.1 == k) = true := by simpa using hp
      have hk : ¬(k = k') := fun hh => h hh.symm
      have hp' : ¬(p.1 = k') := fun hh => h (hh.symm.trans hp)
      simp only [List.map_cons, hb, if_true]
      rw [getk_cons, getk_cons, if_neg hk, if_neg hp']
      exact ih
    · have hb : (p.1 == k) = false := by simpa using hp
      simp only [List.map_cons, hb, Bool.false_eq_true, if_false]
      rw [getk_cons, getk_cons]
      by_cases hpk : p.1 = k'
      · rw [if_pos hpk, if_pos hpk]
      · rw [if_neg hpk, if_neg hpk]; exact ih

theorem getk_setk_self {α : Type} (m : Dict α) (k : String) (v : α) :
    getk (setk m k v) k = some v := by
  unfold setk
  by_cases h : hask m k
  · simp only [h, if_true]
    exact getk_mapset_self m k v h
  · simp only [h, Bool.false_eq_true, if_false]
    rw [getk_append_right m _ k (by simpa using h)]
    rw [getk_cons]
    simp

theorem getk_setk_ne {α : Type} (m : Dict α) (k k' : String) (v : α)
    (h : k' ≠ k) : getk (setk m k v) k' = getk m k' := by
  unfold setk
  by_cases hm : hask m k
  · simp only [hm, if_true]
    exact getk_mapset_ne m k k' v h
  · simp only [hm, Bool.false_eq_true, if_false]
    by_cases hk' : hask m k'
    · rw [getk_append_left m _ k' hk']
    · rw [getk_append_right m _ k' (by simpa using hk')]
      have hne : ¬(k = k') := fun hh => h hh.symm
      rw [getk_cons, if_neg hne]
      rw [getk_none_of_hask_false m k' (by simpa using hk')]
      rfl

theorem hask_setk {α : Type} (m : Dict α) (k k' : String) (v : α) :
    hask (setk m k v) k' = (hask m k' || k == k') := by
  unfold setk
  by_cases hm : hask m k
  · simp only [hm, if_true]
    rw [hask_eq_keys, mapset_keys, ← hask_eq_keys]
    by_cases hk : k = k'
    · subst hk; simp [hm]
    · have hb : (k == k') = false := by simpa using hk
      simp [hb]
  · simp only [hm, Bool.false_eq_true, if_false]
    rw [hask_append]
    simp [hask_cons, hask]

theorem hask_delk_self {α : Type} (m : Dict α) (k : String) :
    hask (delk m k) k = false := by
  induction m with
  | nil => rfl
  | cons p t ih =>
    by_cases hp : p.1 = k
    · have hb : (p.1 != k) = false := by simp [bne, hp]
      simp only [delk, List.filter_cons, hb, Bool.false_eq_true, if_false]
      exact ih
    · have hb : (p.1 != k) = true := by simp [bne, hp]
      have hbb : (p.1 == k) = false := by simpa using hp
      simp only [delk, List.filter_cons, hb, if_true]
      rw [hask_cons, hbb, Bool.false_or]
      exact ih

theorem hask_delk_ne {α : Type} (m : Dict α) (k k' : String) (h : k' ≠ k) :
    hask (delk m k) k' = hask m k' := by
  induction m with
  | nil => rfl
  | cons p t ih =>
    by_cases hp : p.1 = k
    · have hp' : ¬(p.1 = k') := fun hh => h (hh.symm.trans hp)
      have hb : (p.1 != k) = false := by simp [bne, hp]
      have hbb : (p.1 == k') = false := by simpa using hp'
      simp only [delk, List.filter_cons, hb, Bool.false_eq_true, if_false]
      rw [hask_cons, hbb, Bool.false_or]
      exact ih
    · have hb : (p.1 != k) = true := by simp [bne, hp]
      simp only [delk, List.filter_cons, hb, if_true]
      rw [hask_cons, hask_cons]
      show (p.1 == k' || hask (delk t k) k') = (p.1 == k' || hask t k')
      rw [ih]

theorem getk_delk_ne {α : Type} (m : Dict α) (k k' : String) (h : k' ≠ k) :
    getk (delk m k) k' = getk m k' := by
  induction m with
  | nil => rfl
  | cons p t ih =>
    by_cases hp : p.1 = k
    · have hp' : ¬(p.1 = k') := fun hh => h (hh.symm.trans hp)
      have hb : (p.1 != k) = false := by simp [bne, hp]
      simp only [delk, List.filter_cons, hb, Bool.false_eq_true, if_false]
      rw [getk_cons, if_neg hp']
      exact ih
    · have hb : (p.1 != k) = true := by simp [bne, hp]
      simp only [delk, List.filter_cons, hb, if_true]
      rw [getk_cons, getk_cons]
      by_cases hpk : p.1 = k'
      · rw [if_pos hpk, if_pos hpk]
      · rw [if_neg hpk, if_neg hpk]; exact ih


/-! ## The field specification as literals -/

theorem STANDARD_FIELDS_eq : STANDARD_FIELDS = [
    ⟨"url", true, .static .vnull, [], false⟩,
    ⟨"title", true, .static .vnull, [], false⟩,
    ⟨"images", false, .static (.vint 0), [], false⟩,
    ⟨"timestamp", true, .static .vnull, [], false⟩,
    ⟨"keep_formatting", false, .static (.vbool false), [], false⟩,
    ⟨"is_partner", false, .static (.vbool false), [], false⟩,
    ⟨"is_sponsored", false, .static (.vbool false), [], false⟩,
    ⟨"archive", false, .static (.vstr "core"), [], false⟩,
    ⟨"publisher", false, .static (.vstr ""), ["partner"], false⟩,
    ⟨"license", true, .static .vnull, [], false⟩,
    ⟨"language", false, .static (.vstr ""), [], false⟩,
    ⟨"multipage", false, .static (.vbool false), [], false⟩,
    ⟨"entry_point", false, .static (.vstr "index.html"), ["index"], false⟩,
    ⟨"broadcast", false, .computed, [], false⟩,
    ⟨"keywords", false, .static (.vstr ""), [], false⟩] := by rfl

theorem REQUIRED_KEYS_eq :
    REQUIRED_KEYS = ["url", "title", "timestamp", "license"] := by rfl

/-! ## Claim theorems: presentation attributes -/

/-- C8: for every metadata record, the `rtl` property is true exactly when
the `language` field holds one of the seven right-to-left language codes
ar, he, ur, yi, ji, iw, fa. -/
theorem c8_rtl (m : Meta) :
    rtl m = true ↔
      ∃ s, getk m "language" = some (.vstr s) ∧ s ∈ RTL_LANGS := by
  unfold rtl lang
  cases hg : getk m "language" with
  | none => simp
  | some v => cases v <;> simp

/-- C9: for every metadata record, `label` returns one of core, sponsored,
partner; an `archive` value of core forces core regardless of the
`is_sponsored` and `is_partner` flags; otherwise a truthy `is_sponsored`
yields sponsored, otherwise a truthy `is_partner` yields partner,
otherwise core. -/
theorem c9_label (m : Meta) :
    (label m = "core" ∨ label m = "sponsored" ∨ label m = "partner")
    ∧ (getk m "archive" = some (.vstr "core") → label m = "core")
    ∧ (¬(getk m "archive" = some (.vstr "core")) →
        truthy (getk m "is_sponsored") = true → label m = "sponsored")
    ∧ (¬(getk m "archive" = some (.vstr "core")) →
        truthy (getk m "is_sponsored") = false →
        truthy (getk m "is_partner") = true → label m = "partner")
    ∧ (¬(getk m "archive" = some (.vstr "core")) →
        truthy (getk m "is_sponsored") = false →
        truthy (getk m "is_partner") = false → label m = "core") := by
  unfold label
  by_cases h1 : getk m "archive" = some (.vstr "core")
  · have hb : (getk m "archive" == some (.vstr "core")) = true := by
      simpa using h1
    simp [hb, h1]
  · have hb : (getk m "archive" == some (.vstr "core")) = false := by
      simpa using h1
    by_cases h2 : truthy (getk m "is_sponsored")
    · simp [hb, h1, h2]
    · by_cases h3 : truthy (getk m "is_partner") <;> simp [hb, h1, h2, h3]

/-- C9 witness: the label of a concrete sponsored non-core record. -/
theorem c9_witness :
    label [("archive", .vstr "ephem"), ("is_sponsored", .vbool true)] =
      "sponsored" :=
  (c9_label _).2.2.1 (by decide) (by decide)

/-! ## Claim theorems: the embedded archive -/

/-- The view-count update keeps every non-matching row unchanged. -/
theorem add_view_other_rows (zs : List Zipball) (md5 : String) :
    (zs.map (fun z => if z.md5 == md5 then { z with views := z.views + 1 }
                      else z)).filter (fun z => !(z.md5 == md5))
      = zs.filter (fun z => !(z.md5 == md5)) := by
  induction zs with
  | nil => rfl
  | cons z t ih =>
    by_cases h : z.md5 = md5
    · have hb : (z.md5 == md5) = true := by simpa using h
      simp only [List.map_cons, hb, if_true, List.filter_cons,
        Bool.not_true, Bool.false_eq_true, if_false]
      exact ih
    · have hb : (z.md5 == md5) = false := by simpa using h
      simp only [List.map_cons, hb, Bool.false_eq_true, if_false,
        List.filter_cons, Bool.not_false, if_true]
      rw [ih]

/-- The view-count update adds one to the views of every matching row. -/
theorem add_view_matching_rows (zs : List Zipball) (md5 : String) :
    ((zs.map (fun z => if z.md5 == md5 then { z with views := z.views + 1 }
                       else z)).filter (fun z => z.md5 == md5)).map
        (fun z => z.views)
      = (zs.filter (fun z => z.md5 == md5)).map (fun z => z.views + 1) := by
  induction zs with
  | nil => rfl
  | cons z t ih =>
    by_cases h : z.md5 = md5
    · have hb : (z.md5 == md5) = true := by simpa using h
      simp only [List.map_cons, hb, if_true, List.filter_cons]
      rw [ih]
    · have hb : (z.md5 == md5) = false := by simpa using h
      simp only [List.map_cons, hb, Bool.false_eq_true, if_false,
        List.filter_cons]
      exact ih

/-- A map that fixes every element of a list is the identity on it. -/
theorem map_id_of_fixed {α : Type} (l : List α) (f : α → α)
    (h : ∀ a ∈ l, f a = a) : l.map f = l := by
  induction l with
  | nil => rfl
  | cons a t ih =>
    rw [List.map_cons, h a (by simp), ih (fun b hb => h b (by simp [hb]))]

/-- C5: incrementing the view count of an md5 with no matching row updates
zero rows (the table is unchanged) and raises the fatal consistency
assertion; with exactly one matching row it succeeds, returning row count
one, incrementing that row's view count and leaving all other rows
unchanged. -/
theorem c5_add_view (db : DBState) (md5 : String) :
    (db.zipballs.countP (fun z => z.md5 == md5) = 0 →
       (add_view db md5).2 = .error "Updated more than one row"
       ∧ (add_view db md5).1 = db)
    ∧ (db.zipballs.countP (fun z => z.md5 == md5) = 1 →
       (add_view db md5).2 = .ok 1
       ∧ ((add_view db md5).1.zipballs.filter
            (fun z => z.md5 == md5)).map (fun z => z.views)
          = (db.zipballs.filter (fun z => z.md5 == md5)).map
              (fun z => z.views + 1)
       ∧ (add_view db md5).1.zipballs.filter (fun z => !(z.md5 == md5))
          = db.zipballs.filter (fun z => !(z.md5 == md5))) := by
  constructor
  · intro h0
    have hall : ∀ z ∈ db.zipballs, ¬((fun z => z.md5 == md5) z = true) :=
      List.countP_eq_zero.mp h0
    constructor
    · simp only [add_view, h0]
      rfl
    · simp only [add_view]
      have : db.zipballs.map
          (fun z => if z.md5 == md5 then { z with views := z.views + 1 }
                    else z) = db.zipballs := by
        refine map_id_of_fixed _ _ (fun z hz => ?_)
        have := hall z hz
        simp only [Bool.not_eq_true] at this
        simp [this]
      rw [this]
  · intro h1
    refine ⟨?_, ?_, ?_⟩
    · simp only [add_view, h1]
      rfl
    · simpa only [add_view] using add_view_matching_rows db.zipballs md5
    · simpa only [add_view] using add_view_other_rows db.zipballs md5

/-- C5 witness: concrete runs of `add_view` on an empty table and on a
table holding exactly one matching row. -/
theorem c5_witness :
    (add_view dbEmpty "m").2 = .error "Updated more than one row"
    ∧ (add_view db1 "m").2 = .ok 1 :=
  ⟨((c5_add_view dbEmpty "m").1 (by decide)).1,
   ((c5_add_view db1 "m").2 (by decide)).1⟩

/-- C10: calling `add_tags` or `remove_tags` with an empty tag collection
returns immediately: the database tables and the content record's tag
mapping are unchanged. -/
theorem c10_empty_tags (db : DBState) (meta : MetaObj) :
    add_tags db meta [] = (db, meta)
    ∧ remove_tags db meta [] = some (db, meta) :=
  ⟨rfl, rfl⟩

/-! ## Lemmas about the default-filling loop -/

theorem add_key_ok_cases (P : DateParser) (m : Meta) (f : Field) (m1 : Meta)
    (h : add_key P m f = .ok m1) :
    (hask m f.name = true ∧ m1 = m) ∨
    (hask m f.name = false ∧
      ∃ v, get_default_value P f m = .ok v ∧ m1 = setk m f.name v) := by
  unfold add_key at h
  by_cases hm : hask m f.name = true
  · rw [if_pos hm] at h
    simp only [Except.ok.injEq] at h
    exact Or.inl ⟨hm, h.symm⟩
  · rw [if_neg hm] at h
    cases hd : get_default_value P f m with
    | ok v =>
      rw [hd] at h
      simp only [Except.ok.injEq] at h
      exact Or.inr ⟨by simpa using hm, v, rfl, h.symm⟩
    | error e => rw [hd] at h; cases h

theorem add_keys_append (P : DateParser) (A B : List Field) (m : Meta) :
    add_keys P (A ++ B) m =
      match add_keys P A m with
      | .ok m1 => add_keys P B m1
      | .error e => .error e := by
  induction A generalizing m with
  | nil => simp [add_keys]
  | cons f A ih =>
    simp only [List.cons_append, add_keys]
    cases add_key P m f <;> simp [ih]

/-- Keys already present are never touched by the filling loop. -/
theorem add_keys_preserved (P : DateParser) (L : List Field) (k : String) :
    ∀ m out, hask m k = true → add_keys P L m = .ok out →
      getk out k = getk m k ∧ hask out k = true := by
  induction L with
  | nil =>
    intro m out hk h
    simp only [add_keys, Except.ok.injEq] at h
    subst h
    exact ⟨rfl, hk⟩
  | cons f L ih =>
    intro m out hk h
    simp only [add_keys] at h
    cases hstep : add_key P m f with
    | error e => rw [hstep] at h; cases h
    | ok m1 =>
      rw [hstep] at h
      rcases add_key_ok_cases P m f m1 hstep with ⟨_, rfl⟩ | ⟨hm, v, _, rfl⟩
      · exact ih _ out hk h
      · have hne : k ≠ f.name := by
          intro he; rw [he] at hk; rw [hk] at hm; cases hm
        have h2 : hask (setk m f.name v) k = true := by
          rw [hask_setk]; simp [hk]
        obtain ⟨ha, hb⟩ := ih _ out h2 h
        exact ⟨ha.trans (getk_setk_ne m f.name k v hne), hb⟩

/-- A key named by no field of the loop stays absent. -/
theorem add_keys_absent (P : DateParser) (L : List Field) (k : String)
    (hn : ∀ f ∈ L, f.name ≠ k) :
    ∀ m out, hask m k = false → add_keys P L m = .ok out →
      hask out k = false := by
  induction L with
  | nil =>
    intro m out hk h
    simp only [add_keys, Except.ok.injEq] at h
    subst h
    exact hk
  | cons f L ih =>
    intro m out hk h
    simp only [add_keys] at h
    cases hstep : add_key P m f with
    | error e => rw [hstep] at h; cases h
    | ok m1 =>
      rw [hstep] at h
      have hn' : ∀ g ∈ L, g.name ≠ k :=
        fun g hg => hn g (List.mem_cons_of_mem f hg)
      rcases add_key_ok_cases P m f m1 hstep with ⟨_, rfl⟩ | ⟨hm, v, _, rfl⟩
      · exact ih hn' _ out hk h
      · have hne : (f.name == k) = false := by
          simpa using hn f (List.mem_cons_self f L)
        have h2 : hask (setk m f.name v) k = false := by
          rw [hask_setk, hk, hne]
          rfl
        exact ih hn' _ out h2 h

/-- A loop over fields with static defaults cannot fail. -/
theorem add_keys_static_ok (P : DateParser) (A : List Field)
    (hs : ∀ g ∈ A, g.dflt ≠ .computed) :
    ∀ m, ∃ m1, add_keys P A m = .ok m1 := by
  induction A with
  | nil => exact fun m => ⟨m, rfl⟩
  | cons f A ih =>
    intro m
    have hstep : ∃ m1, add_key P m f = .ok m1 := by
      unfold add_key
      by_cases hm : hask m f.name = true
      · exact ⟨m, by rw [if_pos hm]⟩
      · cases hd : f.dflt with
        | static v =>
          refine ⟨setk m f.name v, ?_⟩
          rw [if_neg hm]
          unfold get_default_value
          rw [hd]
        | computed => exact absurd hd (hs f (List.mem_cons_self f A))
    obtain ⟨m1, hm1⟩ := hstep
    obtain ⟨m2, hm2⟩ :=
      ih (fun g hg => hs g (List.mem_cons_of_mem f hg)) m1
    refine ⟨m2, ?_⟩
    simp only [add_keys]
    rw [hm1]
    exact hm2

/-- A missing field with a static default receives exactly that value. -/
theorem add_keys_sets_static (P : DateParser) (A B : List Field) (f : Field)
    (v : Val) (m out : Meta)
    (hd : f.dflt = .static v)
    (hA : ∀ g ∈ A, g.name ≠ f.name)
    (hm : hask m f.name = false)
    (h : add_keys P (A ++ f :: B) m = .ok out) :
    getk out f.name = some v := by
  rw [add_keys_append] at h
  cases hAres : add_keys P A m with
  | error e => rw [hAres] at h; cases h
  | ok m1 =>
    rw [hAres] at h
    have hm1 : hask m1 f.name = false :=
      add_keys_absent P A f.name hA m m1 hm hAres
    simp only [add_keys] at h
    have hstep : add_key P m1 f = .ok (setk m1 f.name v) := by
      unfold add_key
      rw [if_neg (by simp [hm1])]
      unfold get_default_value
      rw [hd]
    rw [hstep] at h
    have h3 : hask (setk m1 f.name v) f.name = true := by
      rw [hask_setk]; simp
    obtain ⟨ha, _⟩ := add_keys_preserved P B f.name _ out h3 h
    rw [ha, getk_setk_self]

/-- A missing field with the computed broadcast default receives the date
parsed from the timestamp value. -/
theorem add_keys_sets_computed (P : DateParser) (A B : List Field)
    (f : Field) (m out : Meta) (s : String) (d : Nat)
    (hd : f.dflt = .computed)
    (hA : ∀ g ∈ A, g.name ≠ f.name)
    (hm : hask m f.name = false)
    (hts : getk m "timestamp" = some (.vstr s))
    (hP : P s = some d)
    (h : add_keys P (A ++ f :: B) m = .ok out) :
    getk out f.name = some (.vdate d) := by
  rw [add_keys_append] at h
  cases hAres : add_keys P A m with
  | error e => rw [hAres] at h; cases h
  | ok m1 =>
    rw [hAres] at h
    have htsk : hask m "timestamp" = true := hask_true_of_getk_some _ _ _ hts
    obtain ⟨hts1, _⟩ :=
      add_keys_preserved P A "timestamp" m m1 htsk hAres
    have hm1 : hask m1 f.name = false :=
      add_keys_absent P A f.name hA m m1 hm hAres
    simp only [add_keys] at h
    have hdb : default_broadcast P m1 = .ok (.vdate d) := by
      unfold default_broadcast
      rw [hts1, hts]
      simp [hP]
    have hstep : add_key P m1 f = .ok (setk m1 f.name (.vdate d)) := by
      unfold add_key
      rw [if_neg (by simp [hm1])]
      unfold get_default_value
      rw [hd, hdb]
    rw [hstep] at h
    have h3 : hask (setk m1 f.name (.vdate d)) f.name = true := by
      rw [hask_setk]; simp
    obtain ⟨ha, _⟩ := add_keys_preserved P B f.name _ out h3 h
    rw [ha, getk_setk_self]

/-- When the computed broadcast default raises, the loop fails with that
exception. -/
theorem add_keys_computed_error (P : DateParser) (A B : List Field)
    (f : Field) (m : Meta) (e : String)
    (hd : f.dflt = .computed)
    (hs : ∀ g ∈ A, g.dflt ≠ .computed)
    (hA : ∀ g ∈ A, g.name ≠ f.name)
    (hm : hask m f.name = false)
    (hts : hask m "timestamp" = true)
    (herr : default_broadcast P m = .error e) :
    add_keys P (A ++ f :: B) m = .error e := by
  obtain ⟨m1, hAres⟩ := add_keys_static_ok P A hs m
  rw [add_keys_append, hAres]
  obtain ⟨hts1, _⟩ := add_keys_preserved P A "timestamp" m m1 hts hAres
  have hm1 : hask m1 f.name = false :=
    add_keys_absent P A f.name hA m m1 hm hAres
  simp only [add_keys]
  have hstep : add_key P m1 f = .error e := by
    unfold add_key
    rw [if_neg (by simp [hm1])]
    unfold get_default_value
    rw [hd]
    unfold default_broadcast
    unfold default_broadcast at herr
    rw [hts1]
    rw [herr]
  rw [hstep]

/-! ## Lemmas about convert_json -/

theorem convert_json_parsed (P : DateParser) (m0 : Meta) :
    convert_json P (.parsed m0) = convert_checked P (replace_aliases m0) :=
  rfl

theorem convert_ok_required (P : DateParser) (m0 out : Meta)
    (h : convert_json P (.parsed m0) = .ok out) :
    ∀ f ∈ STANDARD_FIELDS, f.required = true →
      hask (replace_aliases m0) f.name = true := by
  intro f hf hreq
  rw [convert_json_parsed] at h
  unfold convert_checked at h
  cases hfind : STANDARD_FIELDS.find?
      (fun f => f.required && !hask (replace_aliases m0) f.name) with
  | some g => rw [hfind] at h; cases h
  | none =>
    have hnone := List.find?_eq_none.mp hfind f hf
    simp [hreq] at hnone
    exact hnone

theorem convert_ok_add_missing (P : DateParser) (m0 out : Meta)
    (h : convert_json P (.parsed m0) = .ok out) :
    add_missing_keys P (replace_aliases m0) = .ok out := by
  rw [convert_json_parsed] at h
  unfold convert_checked at h
  cases hfind : STANDARD_FIELDS.find?
      (fun f => f.required && !hask (replace_aliases m0) f.name) with
  | some g => rw [hfind] at h; cases h
  | none =>
    rw [hfind] at h
    cases hadd : add_missing_keys P (replace_aliases m0) with
    | ok m =>
      rw [hadd] at h
      simp only [Except.ok.injEq] at h
      rw [h]
    | error e => rw [hadd] at h; cases h

theorem sf_names_nodup :
    (STANDARD_FIELDS.map (fun f => f.name)).Nodup := by decide

theorem sf_computed_only_broadcast :
    ∀ g ∈ STANDARD_FIELDS, g.dflt = .computed → g.name = "broadcast" := by
  decide

/-- Every standard field splits the specification list, with no
earlier field of the same name. -/
theorem sf_decomp (f : Field) (hf : f ∈ STANDARD_FIELDS) :
    ∃ A B, STANDARD_FIELDS = A ++ f :: B ∧ (∀ g ∈ A, g.name ≠ f.name) ∧
      (∀ g ∈ A, g ∈ STANDARD_FIELDS) := by
  obtain ⟨A, B, hAB⟩ := List.append_of_mem hf
  refine ⟨A, B, hAB, ?_, ?_⟩
  · intro g hg hgname
    have hnodup := sf_names_nodup
    rw [hAB, List.map_append, List.map_cons] at hnodup
    have hdisj := List.disjoint_of_nodup_append hnodup
    exact hdisj (List.mem_map_of_mem _ hg)
      (by rw [hgname]; exact List.mem_cons_self _ _)
  · intro g hg
    rw [hAB]
    exact List.mem_append_left _ hg

/-! ## Claim theorems: the metadata normalizer -/

/-- C1: for a parsed JSON object that after alias replacement lacks the
required key `k` (all other required keys being present), `convert_json`
raises the FormatError naming `k`; and whenever `convert_json` succeeds,
every required key is present after alias replacement. -/
theorem c1_required_fields (P : DateParser) (m0 : Meta) :
    (∀ k ∈ REQUIRED_KEYS,
      (∀ k2 ∈ REQUIRED_KEYS, k2 ≠ k →
        hask (replace_aliases m0) k2 = true) →
      hask (replace_aliases m0) k = false →
      convert_json P (.parsed m0) =
        .error (.formatError ("Mandatory key " ++ quoted k ++ " missing")))
    ∧ (∀ out, convert_json P (.parsed m0) = .ok out →
        ∀ k ∈ REQUIRED_KEYS, hask (replace_aliases m0) k = true) := by
  constructor
  · intro k hk hothers hmissing
    rw [convert_json_parsed]
    unfold convert_checked
    rw [REQUIRED_KEYS_eq] at hk
    simp only [List.mem_cons, List.not_mem_nil, or_false] at hk
    have hmem : ∀ k2, k2 ∈ REQUIRED_KEYS ↔
        (k2 = "url" ∨ k2 = "title" ∨ k2 = "timestamp" ∨ k2 = "license") := by
      intro k2
      rw [REQUIRED_KEYS_eq]
      simp
    rcases hk with rfl | rfl | rfl | rfl
    · have hfind : STANDARD_FIELDS.find?
          (fun f => f.required && !hask (replace_aliases m0) f.name) =
          some ⟨"url", true, .static .vnull, [], false⟩ := by
        rw [STANDARD_FIELDS_eq]
        simp [List.find?, hmissing]
      rw [hfind]
    · have hu : hask (replace_aliases m0) "url" = true :=
        hothers "url" ((hmem "url").mpr (Or.inl rfl)) (by decide)
      have hfind : STANDARD_FIELDS.find?
          (fun f => f.required && !hask (replace_aliases m0) f.name) =
          some ⟨"title", true, .static .vnull, [], false⟩ := by
        rw [STANDARD_FIELDS_eq]
        simp [List.find?, hu, hmissing]
      rw [hfind]
    · have hu : hask (replace_aliases m0) "url" = true :=
        hothers "url" ((hmem "url").mpr (Or.inl rfl)) (by decide)
      have hti : hask (replace_aliases m0) "title" = true :=
        hothers "title" ((hmem "title").mpr (Or.inr (Or.inl rfl)))
          (by decide)
      have hfind : STANDARD_FIELDS.find?
          (fun f => f.required && !hask (replace_aliases m0) f.name) =
          some ⟨"timestamp", true, .static .vnull, [], false⟩ := by
        rw [STANDARD_FIELDS_eq]
        simp [List.find?, hu, hti, hmissing]
      rw [hfind]
    · have hu : hask (replace_aliases m0) "url" = true :=
        hothers "url" ((hmem "url").mpr (Or.inl rfl)) (by decide)
      have hti : hask (replace_aliases m0) "title" = true :=
        hothers "title" ((hmem "title").mpr (Or.inr (Or.inl rfl)))
          (by decide)
      have hts : hask (replace_aliases m0) "timestamp" = true :=
        hothers "timestamp"
          ((hmem "timestamp").mpr (Or.inr (Or.inr (Or.inl rfl))))
          (by decide)
      have hfind : STANDARD_FIELDS.find?
          (fun f => f.required && !hask (replace_aliases m0) f.name) =
          some ⟨"license", true, .static .vnull, [], false⟩ := by
        rw [STANDARD_FIELDS_eq]
        simp [List.find?, hu, hti, hts, hmissing]
      rw [hfind]
  · intro out h k hk
    have hall := convert_ok_required P m0 out h
    rw [REQUIRED_KEYS_eq] at hk
    simp only [List.mem_cons, List.not_mem_nil, or_false] at hk
    rcases hk with rfl | rfl | rfl | rfl
    · exact hall ⟨"url", true, .static .vnull, [], false⟩ (by decide) rfl
    · exact hall ⟨"title", true, .static .vnull, [], false⟩ (by decide) rfl
    · exact hall ⟨"timestamp", true, .static .vnull, [], false⟩
        (by decide) rfl
    · exact hall ⟨"license", true, .static .vnull, [], false⟩ (by decide) rfl

/-- C1 witness: a concrete object missing only `url` is rejected with the
FormatError naming url. -/
theorem c1_witness :
    convert_json P0 (.parsed mMissingUrl) =
      .error (.formatError ("Mandatory key " ++ quoted "url" ++ " missing")) :=
  (c1_required_fields P0 mMissingUrl).1 "url" (by decide) (by decide)
    (by decide)

/-- C3 (amended): every optional (non-required, non-auto) field still
missing after alias replacement is filled by `convert_json` with its
declared default: the static value for static defaults, and for the
computed broadcast default the date parsed from the timestamp value; a
failure while computing the broadcast default raises DecodeError.  (As
frozen the claim reads absent from the input dict: the counterexample
shows an aliased field absent from the input that is filled from its
alias, not with its default.) -/
theorem c3_optional_defaults (P : DateParser) (m0 : Meta) :
    (∀ out, convert_json P (.parsed m0) = .ok out →
      (∀ f ∈ STANDARD_FIELDS, f.required = false →
        ∀ v, f.dflt = .static v →
          hask (replace_aliases m0) f.name = false →
          getk out f.name = some v)
      ∧ (∀ s d, hask (replace_aliases m0) "broadcast" = false →
          getk (replace_aliases m0) "timestamp" = some (.vstr s) →
          P s = some d → getk out "broadcast" = some (.vdate d)))
    ∧ (∀ e, (∀ k ∈ REQUIRED_KEYS, hask (replace_aliases m0) k = true) →
        hask (replace_aliases m0) "broadcast" = false →
        default_broadcast P (replace_aliases m0) = .error e →
        convert_json P (.parsed m0) =
          .error (.decodeError
            ("Failed to add default values: " ++ quoted e))) := by
  constructor
  · intro out hok
    have hadd : add_keys P STANDARD_FIELDS (replace_aliases m0) = .ok out :=
      convert_ok_add_missing P m0 out hok
    constructor
    · intro f hf hreq v hd habs
      obtain ⟨A, B, hAB, hA, _⟩ := sf_decomp f hf
      rw [hAB] at hadd
      exact add_keys_sets_static P A B f v _ out hd hA habs hadd
    · intro s d habs hts hP
      have hfb : (⟨"broadcast", false, .computed, [], false⟩ : Field) ∈
          STANDARD_FIELDS := by decide
      obtain ⟨A, B, hAB, hA, _⟩ := sf_decomp _ hfb
      rw [hAB] at hadd
      exact add_keys_sets_computed P A B _ _ out s d rfl hA habs hts hP hadd
  · intro e hreq habs herr
    rw [convert_json_parsed]
    unfold convert_checked
    have hfind : STANDARD_FIELDS.find?
        (fun f => f.required && !hask (replace_aliases m0) f.name) =
        none := by
      refine List.find?_eq_none.mpr (fun f hf => ?_)
      by_cases hr : f.required = true
      · have hname : f.name ∈ REQUIRED_KEYS := by
          have hmem : f ∈ META_SPECIFICATION := (List.mem_filter.mp hf).1
          exact List.mem_map_of_mem _ (List.mem_filter.mpr ⟨hmem, hr⟩)
        have hh := hreq f.name hname
        simp [hr, hh]
      · have hr' : f.required = false := by simpa using hr
        simp [hr']
    rw [hfind]
    have hfb : (⟨"broadcast", false, .computed, [], false⟩ : Field) ∈
        STANDARD_FIELDS := by decide
    obtain ⟨A, B, hAB, hA, hAmem⟩ := sf_decomp _ hfb
    have hs : ∀ g ∈ A, g.dflt ≠ .computed := by
      intro g hg hc
      exact hA g hg (sf_computed_only_broadcast g (hAmem g hg) hc)
    have hts : hask (replace_aliases m0) "timestamp" = true := by
      refine hreq "timestamp" ?_
      rw [REQUIRED_KEYS_eq]
      simp
    have herr2 : add_keys P
        (A ++ (⟨"broadcast", false, .computed, [], false⟩ : Field) :: B)
        (replace_aliases m0) = .error e :=
      add_keys_computed_error P A B _ _ e rfl hs hA habs hts herr
    unfold add_missing_keys
    rw [hAB, herr2]

/-- C3 counterexample: `publisher` is absent from the input dict, yet the
deprecated alias `partner` supplies its value, so `convert_json` does not
use the declared default (the empty string). -/
theorem c3_counterexample :
    (convert_json P0 (.parsed c3Input)).toOption.map
        (fun out => getk out "publisher") = some (some (.vstr "X"))
    ∧ hask c3Input "publisher" = false
    ∧ ((⟨"publisher", false, .static (.vstr ""), ["partner"], false⟩ : Field)
        ∈ STANDARD_FIELDS)
    ∧ Val.vstr "X" ≠ Val.vstr "" :=
  ⟨rfl, rfl, by decide, by decide⟩

/-- C3 witness: a concrete object with every optional field missing gets
the static default for `images` and the computed broadcast date. -/
theorem c3_witness :
    ∃ out, convert_json P0 (.parsed m3w) = .ok out ∧
      getk out "images" = some (.vint 0) ∧
      getk out "broadcast" = some (.vdate 42) := by
  refine ⟨out3, rfl, ?_, ?_⟩
  · exact ((c3_optional_defaults P0 m3w).1 out3 rfl).1
      ⟨"images", false, .static (.vint 0), [], false⟩ (by decide) rfl
      (.vint 0) rfl (by decide)
  · exact ((c3_optional_defaults P0 m3w).1 out3 rfl).2 "2014" 42
      (by decide) (by decide) rfl

/-- C2 (amended): `clean_keys` strips every non-specification key and
leaves specification keys readable unchanged; `convert_json` itself never
invokes it, so its result may retain non-specification input keys (see
the counterexample). -/
theorem c2_clean_keys (m : Meta) :
    (∀ p ∈ clean_keys m, ∃ f ∈ STANDARD_FIELDS, f.name = p.1)
    ∧ (∀ k, (∃ f ∈ STANDARD_FIELDS, f.name = k) →
        getk (clean_keys m) k = getk m k) := by
  constructor
  · intro p hp
    have hmem := List.mem_filter.mp hp
    obtain ⟨f, hf, hfp⟩ := List.any_eq_true.mp hmem.2
    exact ⟨f, hf, by simpa using hfp⟩
  · intro k hk
    induction m with
    | nil => rfl
    | cons p t ih =>
      by_cases hkey : p.1 = k
      · have hpred : (STANDARD_FIELDS.any (fun f => f.name == p.1)) = true := by
          rcases hk with ⟨f, hf, hfk⟩
          refine List.any_eq_true.mpr ⟨f, hf, ?_⟩
          simp [hfk, hkey]
        simp only [clean_keys, List.filter_cons, hpred, if_true]
        rw [getk_cons, getk_cons, if_pos hkey, if_pos hkey]
      · by_cases hpred : (STANDARD_FIELDS.any (fun f => f.name == p.1)) = true
        · simp only [clean_keys, List.filter_cons, hpred, if_true]
          rw [getk_cons, getk_cons, if_neg hkey, if_neg hkey]
          exact ih
        · have hpred' : (STANDARD_FIELDS.any (fun f => f.name == p.1)) =
              false := by simpa using hpred
          simp only [clean_keys, List.filter_cons, hpred',
            Bool.false_eq_true, if_false]
          rw [getk_cons, if_neg hkey]
          exact ih

/-- C2 counterexample: `convert_json` succeeds on an input carrying the
non-specification key `foo` and keeps that key in its result. -/
theorem c2_counterexample :
    (convert_json P0 (.parsed c2Input)).toOption.map
        (fun out => hask out "foo") = some true
    ∧ (∀ f ∈ STANDARD_FIELDS, f.name ≠ "foo") :=
  ⟨rfl, by decide⟩

/-- C2 witness: `clean_keys` leaves the specification key `url` readable
unchanged on a concrete dict. -/
theorem c2_witness :
    getk (clean_keys c2Input) "url" = getk c2Input "url" :=
  (c2_clean_keys c2Input).2 "url"
    ⟨⟨"url", true, .static .vnull, [], false⟩, by decide, rfl⟩

/-! ## Claim theorems: image resolution -/

/-- C7: when no cover is already cached (the `_image` slot is empty and
the cover directory holds none) and a zip path may or may not be set, a
`TypeError` or `OSError` raised while extracting an image from the
archive bundle is caught: the `image` property returns none instead of
propagating the exception. -/
theorem c7_image_error (env : ImgEnv) (w : MetaWrap)
    (hc : w.imageCache = none)
    (hg : env.coverPath = none)
    (he : env.extract = .raiseTypeError ∨ env.extract = .raiseOSError) :
    (image env w).1 = none := by
  unfold image
  rw [hc, hg]
  cases hz : w.zipPath with
  | none => rfl
  | some z => rcases he with he | he <;> rw [he]

/-- C7 witness: a concrete record whose zip extraction raises `OSError`
resolves to no image. -/
theorem c7_witness :
    (image ⟨none, .raiseOSError, fun _ _ => .ok "c.jpg"⟩
      ⟨none, some "foo.zip"⟩).1 = none :=
  c7_image_error ⟨none, .raiseOSError, fun _ _ => .ok "c.jpg"⟩
    ⟨none, some "foo.zip"⟩ rfl rfl (Or.inr rfl)

/-! ## Lemmas about alias replacement -/

theorem getk_some_of_hask {α : Type} (m : Dict α) (k : String)
    (h : hask m k = true) : ∃ v, getk m k = some v := by
  induction m with
  | nil => simp [hask] at h
  | cons p t ih =>
    by_cases hp : p.1 = k
    · exact ⟨p.2, by rw [getk_cons, if_pos hp]⟩
    · have hb : (p.1 == k) = false := by simpa using hp
      have ht : hask t k = true := by simpa [hask_cons, hb] using h
      obtain ⟨v, hv⟩ := ih ht
      exact ⟨v, by rw [getk_cons, if_neg hp]; exact hv⟩

theorem pop_alias_getk_ne (key a k2 : String) (m : Meta)
    (h1 : k2 ≠ key) (h2 : k2 ≠ a) :
    getk (pop_alias key m a) k2 = getk m k2 := by
  unfold pop_alias
  cases hga : getk m a with
  | none => rfl
  | some v => rw [getk_setk_ne _ _ _ _ h1, getk_delk_ne _ _ _ h2]

theorem pop_alias_hask_ne (key a k2 : String) (m : Meta)
    (h1 : k2 ≠ key) (h2 : k2 ≠ a) :
    hask (pop_alias key m a) k2 = hask m k2 := by
  unfold pop_alias
  cases hga : getk m a with
  | none => rfl
  | some v =>
    rw [hask_setk, hask_delk_ne _ _ _ h2,
      beq_eq_false_iff_ne.mpr (fun hh => h1 hh.symm), Bool.or_false]

theorem aliases_fold_getk_ne (key k2 : String) (h1 : k2 ≠ key) :
    ∀ (as : List String) (m : Meta), (∀ a ∈ as, k2 ≠ a) →
      getk (as.foldl (pop_alias key) m) k2 = getk m k2 := by
  intro as
  induction as with
  | nil => intro m _; rfl
  | cons a as ih =>
    intro m h2
    rw [List.foldl_cons,
      ih (pop_alias key m a) (fun b hb => h2 b (List.mem_cons_of_mem a hb)),
      pop_alias_getk_ne key a k2 m h1 (h2 a (List.mem_cons_self a as))]

theorem aliases_fold_hask_ne (key k2 : String) (h1 : k2 ≠ key) :
    ∀ (as : List String) (m : Meta), (∀ a ∈ as, k2 ≠ a) →
      hask (as.foldl (pop_alias key) m) k2 = hask m k2 := by
  intro as
  induction as with
  | nil => intro m _; rfl
  | cons a as ih =>
    intro m h2
    rw [List.foldl_cons,
      ih (pop_alias key m a) (fun b hb => h2 b (List.mem_cons_of_mem a hb)),
      pop_alias_hask_ne key a k2 m h1 (h2 a (List.mem_cons_self a as))]

theorem alias_step_getk_ne (f : Field) (m : Meta) (k2 : String)
    (h1 : k2 ≠ f.name) (h2 : ∀ a ∈ f.aliases, k2 ≠ a) :
    getk (alias_step m f) k2 = getk m k2 := by
  unfold alias_step
  by_cases hm : hask m f.name = true
  · rw [if_pos hm]
  · rw [if_neg hm]
    exact aliases_fold_getk_ne f.name k2 h1 f.aliases m h2

theorem alias_step_hask_ne (f : Field) (m : Meta) (k2 : String)
    (h1 : k2 ≠ f.name) (h2 : ∀ a ∈ f.aliases, k2 ≠ a) :
    hask (alias_step m f) k2 = hask m k2 := by
  unfold alias_step
  by_cases hm : hask m f.name = true
  · rw [if_pos hm]
  · rw [if_neg hm]
    exact aliases_fold_hask_ne f.name k2 h1 f.aliases m h2

theorem fields_fold_getk_ne (k2 : String) :
    ∀ (L : List Field) (m : Meta),
      (∀ f ∈ L, k2 ≠ f.name ∧ ∀ a ∈ f.aliases, k2 ≠ a) →
      getk (L.foldl alias_step m) k2 = getk m k2 := by
  intro L
  induction L with
  | nil => intro m _; rfl
  | cons f L ih =>
    intro m h
    rw [List.foldl_cons,
      ih (alias_step m f) (fun g hg => h g (List.mem_cons_of_mem f hg)),
      alias_step_getk_ne f m k2 (h f (List.mem_cons_self f L)).1
        (h f (List.mem_cons_self f L)).2]

theorem fields_fold_hask_ne (k2 : String) :
    ∀ (L : List Field) (m : Meta),
      (∀ f ∈ L, k2 ≠ f.name ∧ ∀ a ∈ f.aliases, k2 ≠ a) →
      hask (L.foldl alias_step m) k2 = hask m k2 := by
  intro L
  induction L with
  | nil => intro m _; rfl
  | cons f L ih =>
    intro m h
    rw [List.foldl_cons,
      ih (alias_step m f) (fun g hg => h g (List.mem_cons_of_mem f hg)),
      alias_step_hask_ne f m k2 (h f (List.mem_cons_self f L)).1
        (h f (List.mem_cons_self f L)).2]

/-- Decomposition of the specification at a field, with name-distinctness
and membership facts on both sides. -/
theorem sf_decomp2 (f : Field) (hf : f ∈ STANDARD_FIELDS) :
    ∃ A B, STANDARD_FIELDS = A ++ f :: B ∧
      (∀ g ∈ A, g.name ≠ f.name) ∧ (∀ g ∈ A, g ∈ STANDARD_FIELDS) ∧
      (∀ g ∈ B, g.name ≠ f.name) ∧ (∀ g ∈ B, g ∈ STANDARD_FIELDS) := by
  obtain ⟨A, B, hAB⟩ := List.append_of_mem hf
  have hnodup := sf_names_nodup
  rw [hAB, List.map_append, List.map_cons] at hnodup
  refine ⟨A, B, hAB, ?_, ?_, ?_, ?_⟩
  · intro g hg hgname
    have hdisj := List.disjoint_of_nodup_append hnodup
    exact hdisj (List.mem_map_of_mem _ hg)
      (by rw [hgname]; exact List.mem_cons_self _ _)
  · intro g hg
    rw [hAB]
    exact List.mem_append_left _ hg
  · intro g hg hgname
    have hright := List.Nodup.of_append_right hnodup
    have hnotin := (List.nodup_cons.mp hright).1
    exact hnotin (hgname ▸ List.mem_map_of_mem (fun f => f.name) hg)
  · intro g hg
    rw [hAB]
    exact List.mem_append_right _ (List.mem_cons_of_mem _ hg)

/-- The alias-replacement behaviour at one field with a single alias. -/
theorem replace_aliases_pair (fld : Field) (a : String)
    (hf : fld ∈ STANDARD_FIELDS) (hal : fld.aliases = [a])
    (hne : a ≠ fld.name)
    (hg1 : ∀ g ∈ STANDARD_FIELDS, g.name = fld.name ∨
      (fld.name ≠ g.name ∧ ∀ b ∈ g.aliases, fld.name ≠ b))
    (hg2 : ∀ g ∈ STANDARD_FIELDS, g.name = fld.name ∨
      (a ≠ g.name ∧ ∀ b ∈ g.aliases, a ≠ b))
    (m : Meta) :
    (hask m fld.name = false → hask m a = true →
      getk (replace_aliases m) fld.name = getk m a ∧
      hask (replace_aliases m) a = false)
    ∧ (hask m fld.name = true →
      getk (replace_aliases m) fld.name = getk m fld.name) := by
  obtain ⟨A, B, hAB, hAname, hAmem, hBname, hBmem⟩ := sf_decomp2 fld hf
  have condA1 : ∀ g ∈ A, fld.name ≠ g.name ∧
      ∀ b ∈ g.aliases, fld.name ≠ b := by
    intro g hg
    rcases hg1 g (hAmem g hg) with h | h
    · exact absurd h (hAname g hg)
    · exact h
  have condA2 : ∀ g ∈ A, a ≠ g.name ∧ ∀ b ∈ g.aliases, a ≠ b := by
    intro g hg
    rcases hg2 g (hAmem g hg) with h | h
    · exact absurd h (hAname g hg)
    · exact h
  have condB1 : ∀ g ∈ B, fld.name ≠ g.name ∧
      ∀ b ∈ g.aliases, fld.name ≠ b := by
    intro g hg
    rcases hg1 g (hBmem g hg) with h | h
    · exact absurd h (hBname g hg)
    · exact h
  have condB2 : ∀ g ∈ B, a ≠ g.name ∧ ∀ b ∈ g.aliases, a ≠ b := by
    intro g hg
    rcases hg2 g (hBmem g hg) with h | h
    · exact absurd h (hBname g hg)
    · exact h
  unfold replace_aliases
  rw [hAB, List.foldl_append, List.foldl_cons]
  have hm1get1 : getk (A.foldl alias_step m) fld.name = getk m fld.name :=
    fields_fold_getk_ne fld.name A m condA1
  have hm1has1 : hask (A.foldl alias_step m) fld.name = hask m fld.name :=
    fields_fold_hask_ne fld.name A m condA1
  have hm1get2 : getk (A.foldl alias_step m) a = getk m a :=
    fields_fold_getk_ne a A m condA2
  have hm1has2 : hask (A.foldl alias_step m) a = hask m a :=
    fields_fold_hask_ne a A m condA2
  constructor
  · intro hno hyes
    have hstep : alias_step (A.foldl alias_step m) fld =
        pop_alias fld.name (A.foldl alias_step m) a := by
      simp only [alias_step]
      rw [if_neg (show ¬(hask (A.foldl alias_step m) fld.name = true) by
        rw [hm1has1, hno]; exact Bool.false_ne_true)]
      rw [hal, List.foldl_cons, List.foldl_nil]
    rw [hstep]
    obtain ⟨v, hv⟩ := getk_some_of_hask m a hyes
    have hv1 : getk (A.foldl alias_step m) a = some v := by rw [hm1get2, hv]
    have hpop : pop_alias fld.name (A.foldl alias_step m) a =
        setk (delk (A.foldl alias_step m) a) fld.name v := by
      unfold pop_alias
      rw [hv1]
    rw [hpop]
    constructor
    · rw [fields_fold_getk_ne fld.name B _ condB1, getk_setk_self, hv]
    · rw [fields_fold_hask_ne a B _ condB2, hask_setk, hask_delk_self]
      simp [beq_eq_false_iff_ne.mpr (fun hh => hne hh.symm)]
  · intro hyes
    have hstep : alias_step (A.foldl alias_step m) fld =
        A.foldl alias_step m := by
      simp only [alias_step]
      rw [if_pos (show hask (A.foldl alias_step m) fld.name = true by
        rw [hm1has1]; exact hyes)]
    rw [hstep, fields_fold_getk_ne fld.name B _ condB1, hm1get1]

/-- C4: `replace_aliases` maps the legacy keys `partner` and `index` to
their canonical keys `publisher` and `entry_point` exactly when the
canonical key is absent: the canonical key receives the alias value and
the alias key is removed; a dict already containing the canonical key
keeps its value unchanged. -/
theorem c4_replace_aliases (m : Meta) :
    ((hask m "publisher" = false → hask m "partner" = true →
       getk (replace_aliases m) "publisher" = getk m "partner" ∧
       hask (replace_aliases m) "partner" = false)
     ∧ (hask m "publisher" = true →
       getk (replace_aliases m) "publisher" = getk m "publisher"))
    ∧ ((hask m "entry_point" = false → hask m "index" = true →
       getk (replace_aliases m) "entry_point" = getk m "index" ∧
       hask (replace_aliases m) "index" = false)
     ∧ (hask m "entry_point" = true →
       getk (replace_aliases m) "entry_point" = getk m "entry_point")) :=
  ⟨replace_aliases_pair
      ⟨"publisher", false, .static (.vstr ""), ["partner"], false⟩ "partner"
      (by decide) rfl (by decide) (by decide) (by decide) m,
   replace_aliases_pair
      ⟨"entry_point", false, .static (.vstr "index.html"), ["index"], false⟩
      "index" (by decide) rfl (by decide) (by decide) (by decide) m⟩

/-- C4 witness: a concrete dict carrying only the alias `partner` ends up
with its value under `publisher`, the alias removed. -/
theorem c4_witness :
    getk (replace_aliases [("partner", .vstr "P")]) "publisher" =
      some (.vstr "P")
    ∧ hask (replace_aliases [("partner", .vstr "P")]) "partner" = false := by
  have h := (c4_replace_aliases [("partner", .vstr "P")]).1.1
    (by decide) (by decide)
  exact ⟨by rw [h.1]; rfl, h.2⟩

/-! ## Lemmas about tag updates -/

theorem contains_true_iff (l : List String) (a : String) :
    l.contains a = true ↔ a ∈ l := by simp

theorem hask_of_mem {α : Type} (m : Dict α) (p : String × α) (hp : p ∈ m) :
    hask m p.1 = true :=
  List.any_eq_true.mpr ⟨p, hp, by simp⟩

/-- Overwriting an absent key touches nothing. -/
theorem map_overwrite_id {α : Type} (m : Dict α) (k : String) (v : α)
    (h : hask m k = false) :
    m.map (fun p => if p.1 == k then (k, v) else p) = m := by
  induction m with
  | nil => rfl
  | cons p t ih =>
    simp only [hask_cons, Bool.or_eq_false_iff] at h
    rw [List.map_cons, ih h.2]
    have : (p.1 == k) = false := h.1
    rw [this]
    rfl

/-- Assigning a key absent from a prefix happens entirely in the suffix. -/
theorem setk_append_absent {α : Type} (m e : Dict α) (k : String) (v : α)
    (h : hask m k = false) :
    setk (m ++ e) k v = m ++ setk e k v := by
  unfold setk
  rw [hask_append, h, Bool.false_or]
  by_cases he : hask e k = true
  · rw [if_pos he, if_pos he, List.map_append, map_overwrite_id m k v h]
  · have he' : hask e k = false := by simpa using he
    rw [he', if_neg (by simp), if_neg (by simp), List.append_assoc]

theorem setk_keys_subset {α : Type} (e : Dict α) (k : String) (v : α) :
    ∀ q ∈ setk e k v, q.1 = k ∨ q.1 ∈ e.map Prod.fst := by
  intro q hq
  unfold setk at hq
  by_cases he : hask e k = true
  · rw [if_pos he] at hq
    obtain ⟨q0, hq0, hmap⟩ := List.mem_map.mp hq
    by_cases h0 : q0.1 = k
    · left
      rw [← hmap]
      simp [h0]
    · right
      rw [← hmap]
      have : (q0.1 == k) = false := by simpa using h0
      rw [this]
      simpa using List.mem_map_of_mem Prod.fst hq0
  · rw [if_neg he] at hq
    rcases List.mem_append.mp hq with h1 | h1
    · exact Or.inr (List.mem_map_of_mem Prod.fst h1)
    · left
      rcases List.mem_singleton.mp h1 with rfl
      rfl

/-- `dict.update` with fresh keys appends entries whose keys all come from
the allowed set. -/
theorem updateDict_split {α : Type} (S : List String) :
    ∀ (ps : Dict α) (m e : Dict α),
      (∀ q ∈ e, q.1 ∈ S) → (∀ q ∈ ps, q.1 ∈ S) →
      (∀ x ∈ S, hask m x = false) →
      ∃ ext, updateDict (m ++ e) ps = m ++ ext ∧ ∀ q ∈ ext, q.1 ∈ S := by
  intro ps
  induction ps with
  | nil => exact fun m e he _ _ => ⟨e, rfl, he⟩
  | cons p ps ih =>
    intro m e he hps hm
    have hp1 : p.1 ∈ S := hps p (List.mem_cons_self p ps)
    have hmk : hask m p.1 = false := hm p.1 hp1
    have hstep : updateDict (m ++ e) (p :: ps) =
        updateDict (m ++ setk e p.1 p.2) ps := by
      unfold updateDict
      rw [List.foldl_cons, setk_append_absent m e p.1 p.2 hmk]
    rw [hstep]
    refine ih m (setk e p.1 p.2) ?_ (fun q hq => hps q (List.mem_cons_of_mem p hq)) hm
    intro q hq
    rcases setk_keys_subset e p.1 p.2 q hq with h1 | h1
    · rw [h1]; exact hp1
    · obtain ⟨q0, hq0, hmap⟩ := List.mem_map.mp h1
      rw [← hmap]
      exact he q0 hq0

/-- The presence of a key is monotone under `dict.update`. -/
theorem updateDict_hask_mono {α : Type} (k : String) :
    ∀ (ps : Dict α) (m : Dict α), hask m k = true →
      hask (updateDict m ps) k = true := by
  intro ps
  induction ps with
  | nil => exact fun m h => h
  | cons p ps ih =>
    intro m h
    have hstep : updateDict m (p :: ps) = updateDict (setk m p.1 p.2) ps := by
      unfold updateDict
      rw [List.foldl_cons]
    rw [hstep]
    refine ih _ ?_
    rw [hask_setk, h]
    rfl

/-- A key assigned by `dict.update` is present afterwards. -/
theorem updateDict_hask_mem {α : Type} (k : String) :
    ∀ (ps : Dict α) (m : Dict α), (∃ q ∈ ps, q.1 = k) →
      hask (updateDict m ps) k = true := by
  intro ps
  induction ps with
  | nil => rintro m ⟨q, hq, _⟩; cases hq
  | cons p ps ih =>
    rintro m ⟨q, hq, hqk⟩
    have hstep : updateDict m (p :: ps) = updateDict (setk m p.1 p.2) ps := by
      unfold updateDict
      rw [List.foldl_cons]
    rw [hstep]
    rcases List.mem_cons.mp hq with rfl | htail
    · refine updateDict_hask_mono k ps _ ?_
      rw [hask_setk, hqk]
      simp
    · exact ih _ ⟨q, htail, hqk⟩

/-- Looking up a list of present keys succeeds. -/
theorem lookup_all {α : Type} (m : Dict α) :
    ∀ (ns : List String), (∀ n ∈ ns, hask m n = true) →
      ∃ ids, ns.mapM (fun n => getk m n) = some ids := by
  intro ns
  induction ns with
  | nil => exact fun _ => ⟨[], rfl⟩
  | cons n ns ih =>
    intro h
    obtain ⟨v, hv⟩ := getk_some_of_hask m n (h n (List.mem_cons_self n ns))
    obtain ⟨ids, hids⟩ := ih (fun x hx => h x (List.mem_cons_of_mem n hx))
    refine ⟨v :: ids, ?_⟩
    rw [List.mapM_cons, hv, hids]
    rfl

/-- After the insert loop, a row exists for each inserted name. -/
theorem insertTag_present (t : List TagRow × Nat) (n : String) :
    ((insertTag t n).1.any (fun r => r.name == n)) = true := by
  unfold insertTag
  by_cases h : (t.1.any (fun r => r.name == n)) = true
  · rw [if_pos h]
    exact h
  · rw [if_neg h]
    simp

theorem insertTag_mono (t : List TagRow × Nat) (n x : String)
    (h : (t.1.any (fun r => r.name == x)) = true) :
    ((insertTag t n).1.any (fun r => r.name == x)) = true := by
  unfold insertTag
  by_cases hh : (t.1.any (fun r => r.name == n)) = true
  · rw [if_pos hh]; exact h
  · rw [if_neg hh]
    simp only [List.any_append, h]
    rfl

theorem ensure_fold_mono (x : String) :
    ∀ (names : List String) (t : List TagRow × Nat),
      (t.1.any (fun r => r.name == x)) = true →
      ((names.foldl insertTag t).1.any (fun r => r.name == x)) = true := by
  intro names
  induction names with
  | nil => exact fun t h => h
  | cons n names ih =>
    intro t h
    rw [List.foldl_cons]
    exact ih _ (insertTag_mono t n x h)

theorem ensureTags_present (rows : List TagRow) (next : Nat)
    (names : List String) :
    ∀ n ∈ names, ((ensureTags rows next names).1.any
      (fun r => r.name == n)) = true := by
  unfold ensureTags
  generalize (rows, next) = t
  induction names generalizing t with
  | nil => intro n hn; cases hn
  | cons n0 names ih =>
    intro n hn
    rw [List.foldl_cons]
    rcases List.mem_cons.mp hn with rfl | htail
    · exact ensure_fold_mono n names _ (insertTag_present t n)
    · exact ih _ n htail

/-- Each requested name has a row among the selected tag rows. -/
theorem selectTags_has (tags : List String) (rows : List TagRow)
    (next : Nat) (n : String) (hn : n ∈ tags) :
    ∃ r ∈ selectTags (ensureTags rows next tags).1 tags, r.name = n := by
  obtain ⟨r, hr, hrn⟩ :=
    List.any_eq_true.mp (ensureTags_present rows next tags n hn)
  have hrn' : r.name = n := by simpa using hrn
  refine ⟨r, List.mem_filter.mpr ⟨hr, ?_⟩, hrn'⟩
  rw [hrn']
  exact (contains_true_iff tags n).mpr hn

/-- The components of a non-trivial `add_tags` call. -/
theorem add_tags_tags_eq (db : DBState) (meta : MetaObj)
    (tags : List String) (hne : tags ≠ []) :
    (add_tags db meta tags).2.md5 = meta.md5 ∧
    (add_tags db meta tags).2.tags =
      updateDict meta.tags
        ((selectTags (ensureTags db.tags db.nextTagId tags).1 tags).map
          (fun r => (r.name, r.tag_id))) := by
  have hemp : tags.isEmpty = false := by
    cases tags with
    | nil => exact absurd rfl hne
    | cons a t => rfl
  unfold add_tags
  rw [hemp]
  exact ⟨rfl, rfl⟩

/-- The shape of a non-trivial `remove_tags` call whose lookups succeed. -/
theorem remove_tags_some (db : DBState) (meta : MetaObj)
    (tags : List String) (hne : tags ≠ []) (ids : List Nat)
    (hids : tags.mapM (fun n => getk meta.tags n) = some ids) :
    ∃ db2, remove_tags db meta tags = some
      (db2, { meta with
        tags := meta.tags.filter (fun p => !tags.contains p.1) }) := by
  have hemp : tags.isEmpty = false := by
    cases tags with
    | nil => exact absurd rfl hne
    | cons a t => rfl
  unfold remove_tags
  rw [hemp, hids]
  exact ⟨_, rfl⟩

/-- C6 (amended): for a tag set disjoint from the names already present in
the content record, adding the tags and then removing the same tag set
restores the record's tag mapping; with overlap the original ids are lost
(see the counterexample). -/
theorem c6_add_remove_tags (db : DBState) (meta : MetaObj)
    (tags : List String) (hne : tags ≠ [])
    (hdisj : ∀ n ∈ tags, hask meta.tags n = false) :
    ∃ db2 meta2,
      remove_tags (add_tags db meta tags).1 (add_tags db meta tags).2 tags =
        some (db2, meta2) ∧ meta2.tags = meta.tags := by
  obtain ⟨hmd5, htags⟩ := add_tags_tags_eq db meta tags hne
  have hkeys : ∀ q ∈ (selectTags (ensureTags db.tags db.nextTagId tags).1
      tags).map (fun r => (r.name, r.tag_id)), q.1 ∈ tags := by
    intro q hq
    obtain ⟨r, hr, rfl⟩ := List.mem_map.mp hq
    exact (contains_true_iff tags r.name).mp (List.mem_filter.mp hr).2
  obtain ⟨ext, hext, hextkeys⟩ := by
    refine updateDict_split tags
      ((selectTags (ensureTags db.tags db.nextTagId tags).1 tags).map
        (fun r => (r.name, r.tag_id))) meta.tags [] ?_ hkeys hdisj
    intro q hq
    cases hq
  rw [List.append_nil] at hext
  have hpresent : ∀ n ∈ tags,
      hask ((add_tags db meta tags).2.tags) n = true := by
    intro n hn
    rw [htags]
    apply updateDict_hask_mem
    obtain ⟨r, hr, hrn⟩ := selectTags_has tags db.tags db.nextTagId n hn
    exact ⟨(r.name, r.tag_id), List.mem_map_of_mem _ hr, hrn⟩
  obtain ⟨ids, hids⟩ := lookup_all _ tags hpresent
  obtain ⟨db2, hrm⟩ := remove_tags_some (add_tags db meta tags).1
    (add_tags db meta tags).2 tags hne ids hids
  refine ⟨db2, _, hrm, ?_⟩
  show ((add_tags db meta tags).2.tags).filter
    (fun p => !tags.contains p.1) = meta.tags
  rw [htags, hext, List.filter_append]
  have h1 : meta.tags.filter (fun p => !tags.contains p.1) = meta.tags := by
    refine List.filter_eq_self.mpr (fun p hp => ?_)
    have hpk : hask meta.tags p.1 = true := hask_of_mem meta.tags p hp
    by_cases hin : p.1 ∈ tags
    · rw [hdisj p.1 hin] at hpk
      cases hpk
    · simpa using fun hc => hin ((contains_true_iff tags p.1).mp hc)
  have h2 : ext.filter (fun p => !tags.contains p.1) = [] := by
    refine List.filter_eq_nil_iff.mpr (fun p hp => ?_)
    have hc := (contains_true_iff tags p.1).mpr (hextkeys p hp)
    rw [hc]
    simp
  rw [h1, h2, List.append_nil]

/-- C6 counterexample: the content already carries tag `a` with id 1;
adding and then removing the tag set `a` empties the mapping instead of
restoring it. -/
theorem c6_counterexample :
    (remove_tags (add_tags db0 meta0 ["a"]).1 (add_tags db0 meta0 ["a"]).2
        ["a"]).map (fun r => r.2.tags) = some []
    ∧ meta0.tags = [("a", 1)]
    ∧ ([] : Dict Nat) ≠ [("a", 1)] :=
  ⟨rfl, rfl, by decide⟩

/-- C6 witness: a concrete disjoint round trip restores the (empty) tag
mapping. -/
theorem c6_witness :
    ∃ db2 meta2,
      remove_tags (add_tags db0 metaw ["b"]).1 (add_tags db0 metaw ["b"]).2
        ["b"] = some (db2, meta2) ∧ meta2.tags = metaw.tags :=
  c6_add_remove_tags db0 metaw ["b"] (by decide) (by decide)

end Librarian
